import Mathlib

/-!
Verification development for the EEG graph-analysis pipeline
(`src/generate-edges.py`, `src/find-communities-louvain.py`).

Conventions of the shallow embedding:

* Python floats are idealized as exact numbers: `ℚ` where computations must
  be evaluated concretely, `ℝ` where irrational functions (`sqrt`, `cos`,
  `sin`, `π`) appear.  NaN/infinity do not exist in the model; all modelled
  quantities are finite by construction.
* Python dicts are association lists in insertion order; assignment to an
  existing key updates the value in place, assignment to a fresh key appends
  (CPython 3.7+ semantics).  Python `set` iteration over small ints is
  modelled as ascending order.
* `networkx.Graph` is `NXGraph`: node list in insertion order plus an edge
  list in first-insertion order, at most one stored edge per unordered pair.
* The `community` (python-louvain) library functions called by
  `compute_communities` (`best_partition`, `generate_dendrogram`,
  `partition_at_level`, `induced_graph`, `modularity` and the private
  helpers `__one_level`, `__neighcom`, `__remove`, `__insert`,
  `__renumber`, `__modularity`, `Status.init`) are embedded from the
  library's source, since the repository's behaviour depends on them.
  `numpy.random.RandomState.shuffle` is kept abstract as a `ShuffleModel`:
  a family of reorderings indexed by the seed and by the index of the call.
  Unbounded `while` loops carry explicit fuel; running out of fuel is the
  distinguished outcome `LErr.outOfFuel`, so every `ok` result corresponds
  to a terminating run of the Python code.
* Exceptions (`ValueError`) are the explicit error results of `LRes`.
-/

namespace EEG

/-! ### networkx graph model (`build_graph` in find-communities-louvain.py) -/

/-- Model of `networkx.Graph`: insertion-ordered node list and edge list.
Each stored edge keeps the endpoint orientation of its first insertion.
Node attributes are not modelled (no claim concerns them). -/
structure NXGraph (ν : Type) (α : Type) where
  nodes : List ν
  edges : List (ν × ν × α)
deriving DecidableEq

/-- Does stored edge `e` connect the unordered pair `{u, v}`? -/
def edgeMatches [DecidableEq ν] (u v : ν) (e : ν × ν × α) : Bool :=
  (decide (e.1 = u) && decide (e.2.1 = v)) || (decide (e.1 = v) && decide (e.2.1 = u))

/-- Add a node id to the node list if not already present (dict-key insert). -/
def addNode [DecidableEq ν] (ns : List ν) (x : ν) : List ν :=
  if x ∈ ns then ns else ns ++ [x]

/-- Model of `G.add_edge(u, v, weight=w)`: inserts endpoints as nodes, and
either overwrites the weight of the existing `{u,v}` edge (networkx updates
the attribute dict in place) or appends a new edge. -/
def add_edge [DecidableEq ν] (G : NXGraph ν α) (u v : ν) (w : α) : NXGraph ν α :=
  { nodes := addNode (addNode G.nodes u) v
    edges :=
      if G.edges.any (edgeMatches u v) then
        G.edges.map (fun e => if edgeMatches u v e then (e.1, e.2.1, w) else e)
      else G.edges ++ [(u, v, w)] }

/-- Model of `build_graph(nodes_df, edges_df)`: add every edge row via
`add_edge`, then add every node id from the node table (attribute
assignments omitted). -/
def build_graph [DecidableEq ν] (nodes_df : List ν) (edges_df : List (ν × ν × α)) :
    NXGraph ν α :=
  let G := edges_df.foldl (fun g e => add_edge g e.1 e.2.1 e.2.2)
    { nodes := [], edges := [] }
  { G with nodes := nodes_df.foldl addNode G.nodes }

/-- Model of `G[u][v]['weight']` as an optional lookup. -/
def getEdgeWeight [DecidableEq ν] (G : NXGraph ν α) (u v : ν) : Option α :=
  (G.edges.find? (edgeMatches u v)).map (fun e => e.2.2)

/-- Adjacency view `G[u]` (neighbour, weight), in stored-edge order; a
self-loop contributes one entry, as in networkx. -/
def adjList [DecidableEq ν] (G : NXGraph ν α) (u : ν) : List (ν × α) :=
  G.edges.filterMap (fun e =>
    if e.1 = u then some (e.2.1, e.2.2)
    else if e.2.1 = u then some (e.1, e.2.2) else none)

/-- Dict read with default, `d.get(k, dflt)` / `d[k]`. -/
def dget [DecidableEq κ] (l : List (κ × β)) (k : κ) (dflt : β) : β :=
  match l.find? (fun p => decide (p.1 = k)) with
  | some p => p.2
  | none => dflt

/-- Dict write `d[k] = v`: update in place if the key exists, else append. -/
def dset [DecidableEq κ] (l : List (κ × β)) (k : κ) (v : β) : List (κ × β) :=
  if l.any (fun p => decide (p.1 = k)) then
    l.map (fun p => if p.1 = k then (k, v) else p)
  else l ++ [(k, v)]

/-- Weighted degree `G.degree(u, weight='weight')`: self-loops count twice. -/
def degree [DecidableEq ν] (G : NXGraph ν ℚ) (u : ν) : ℚ :=
  ((adjList G u).map Prod.snd).sum + dget (adjList G u) u 0

/-- Total edge weight `G.size(weight='weight')` (self-loops once). -/
def gsize (G : NXGraph ν ℚ) : ℚ :=
  (G.edges.map (fun e => e.2.2)).sum

/-- Model of `G.get_edge_data(u, v, default)['weight']`. -/
def get_edge_data [DecidableEq ν] (G : NXGraph ν α) (u v : ν) (dflt : α) : α :=
  match G.edges.find? (edgeMatches u v) with
  | some e => e.2.2
  | none => dflt

/-- Edge iteration `G.edges(data=True)`: per node in order, its adjacency
entries whose other endpoint was not processed earlier (networkx `seen`
set). -/
def nxEdgesGo [DecidableEq ν] (G : NXGraph ν α) : List ν → List ν → List (ν × ν × α)
  | [], _ => []
  | u :: rest, seen =>
    ((adjList G u).filterMap (fun p =>
        if p.1 ∈ seen then none else some (u, p.1, p.2)))
      ++ nxEdgesGo G rest (seen ++ [u])

/-- Edge iteration of the whole graph. -/
def nxEdges [DecidableEq ν] (G : NXGraph ν α) : List (ν × ν × α) :=
  nxEdgesGo G G.nodes []

/-! ### Edge generation pipeline (`generate-edges.py`) -/

/-- Row of `nodes.csv` (only the columns `calculate_edges` reads). -/
structure NodeRow where
  Id : ℕ
  Theta : ℝ
  Alpha : ℝ

/-- Row of the produced edge table. -/
structure EdgeRow where
  Source : ℕ
  Target : ℕ
  Distance : ℝ
  Weight : ℝ

/-- Model of `calculate_euclidean_distance`: `scipy` Euclidean distance on
the `(Theta, Alpha)` feature vectors. -/
noncomputable def calculate_euclidean_distance (r1 r2 : NodeRow) : ℝ :=
  Real.sqrt ((r1.Theta - r2.Theta) ^ 2 + (r1.Alpha - r2.Alpha) ^ 2)

/-- Model of `calculate_edges(data, scaling_factor)`: one edge per row pair
`i < j`, weight `1 / (1 + scaled distance)`.  The nested `iterrows` loops
with `i < j` enumerate each earlier row against all later rows. -/
noncomputable def calculate_edges : List NodeRow → ℝ → List EdgeRow
  | [], _ => []
  | r :: rs, s =>
    rs.map (fun r2 =>
      let d := calculate_euclidean_distance r r2 * s
      { Source := r.Id, Target := r2.Id, Distance := d, Weight := 1 / (1 + d) })
      ++ calculate_edges rs s

/-- Model of `filter_edges_by_threshold`: keep rows with `Weight >= threshold`. -/
noncomputable def filter_edges_by_threshold (edges : List EdgeRow) (threshold : ℝ) :
    List EdgeRow :=
  edges.filter (fun e => decide (threshold ≤ e.Weight))

/-- The graph built by the pipeline in `main`: filtered edge rows inserted
via `add_edge`, node ids from the node table. -/
noncomputable def pipeline_graph (data : List NodeRow) (threshold : ℝ) : NXGraph ℕ ℝ :=
  build_graph (data.map (fun r => r.Id))
    ((filter_edges_by_threshold (calculate_edges data 100) threshold).map
      (fun e => (e.Source, e.Target, e.Weight)))

/-! ### Layout composition (`compute_global_layout`) -/

/-- Arithmetic-mean centroid of a list of 2D points. -/
noncomputable def centroid (ps : List (ℝ × ℝ)) : ℝ × ℝ :=
  ((ps.map Prod.fst).sum / ps.length, (ps.map Prod.snd).sum / ps.length)

/-- Angle `2 * math.pi * idx / n_comms` of the `idx`-th community. -/
noncomputable def angleOf (idx n : ℕ) : ℝ := 2 * Real.pi * idx / n

/-- Point at `angleOf idx n` on the circle of radius `R`. -/
noncomputable def circleOffset (R : ℝ) (idx n : ℕ) : ℝ × ℝ :=
  (R * Real.cos (angleOf idx n), R * Real.sin (angleOf idx n))

/-- Community ids in ascending order, `sorted(communities.keys())`. -/
def sortedCommIds (communities : List (ℤ × List ℤ)) : List ℤ :=
  List.insertionSort (· ≤ ·) (communities.map Prod.fst)

/-- Global offset assigned to community `cid` by `compute_global_layout`:
its position in the ascending id order, placed on the circle of radius `R`. -/
noncomputable def assignedAnchor (communities : List (ℤ × List ℤ)) (R : ℝ) (cid : ℤ) :
    ℝ × ℝ :=
  circleOffset R (List.indexOf cid (sortedCommIds communities)) communities.length

/-- Model of `compute_global_layout(G, communities, iterations, R)`.  The
per-community ForceAtlas2 result is the external input `localPos` (community
id, node id ↦ local coordinate).  Each member's local coordinate is
recentred by its community centroid and translated by the community's
circle offset. -/
noncomputable def compute_global_layout (communities : List (ℤ × List ℤ))
    (localPos : ℤ → ℤ → ℝ × ℝ) (R : ℝ) : List (ℤ × (ℝ × ℝ)) :=
  communities.flatMap (fun c =>
    let cent := centroid (c.2.map (localPos c.1))
    let anch := assignedAnchor communities R c.1
    c.2.map (fun v =>
      (v, ((localPos c.1 v).1 - cent.1 + anch.1, (localPos c.1 v).2 - cent.2 + anch.2))))

/-- Read a node's coordinate out of the final position dict. -/
noncomputable def posOf (pos : List (ℤ × (ℝ × ℝ))) (v : ℤ) : ℝ × ℝ :=
  match pos.find? (fun p => decide (p.1 = v)) with
  | some p => p.2
  | none => (0, 0)

/-! ### python-louvain (`community` package) as called by
`compute_communities` -/

/-- Exceptions and loop-bound exhaustion of the Louvain embedding. -/
inductive LErr where
  /-- `ValueError("A graph without link has an undefined modularity")`. -/
  | noLink
  /-- `ValueError("Bad node degree range")` in `Status.init`. -/
  | badDegree
  /-- `ValueError` when both `randomize` and `random_state` are supplied. -/
  | randomStateConflict
  /-- Fuel for an unbounded `while` loop ran out (model artefact only). -/
  | outOfFuel
deriving DecidableEq

/-- Result of a fallible computation (`Except` with decidable equality). -/
inductive LRes (α : Type) where
  | ok : α → LRes α
  | err : LErr → LRes α
deriving DecidableEq

/-- Sequencing of fallible computations. -/
def LRes.bind : LRes α → (α → LRes β) → LRes β
  | .ok a, f => f a
  | .err e, _ => .err e

/-- Abstract model of `numpy.random.RandomState(seed).shuffle`: a family of
reorderings indexed by the seed and by the index of the shuffle call, one
function for node lists and one for `(community, weight)` lists. -/
structure ShuffleModel where
  nodesShuffle : ℕ → ℕ → List ℤ → List ℤ
  pairsShuffle : ℕ → ℕ → List (ℤ × ℚ) → List (ℤ × ℚ)

/-- Model of the `randomize` / `random_state` resolution at the top of
`generate_dendrogram` followed by `check_random_state`: `randomize=False`
forces seed 0; an unset state falls back to the process-wide
(`ambientSeed`) random state. -/
def resolveSeed (randomize : Option Bool) (randomState : Option ℕ) (ambientSeed : ℕ) :
    LRes ℕ :=
  match randomize with
  | some b =>
    if randomState.isSome then .err .randomStateConflict
    else if b = false then .ok 0
    else .ok ambientSeed
  | none =>
    match randomState with
    | some s => .ok s
    | none => .ok ambientSeed

/-- Mutable state of the Louvain optimisation (`class Status`). -/
structure LStatus where
  node2com : List (ℤ × ℤ)
  total_weight : ℚ
  degrees : List (ℤ × ℚ)
  gdegrees : List (ℤ × ℚ)
  internals : List (ℤ × ℚ)
  loops : List (ℤ × ℚ)
deriving DecidableEq

/-- Loop of `Status.init` (the `part is None` branch, the only one reached
from `best_partition(graph, ..., partition=None)`): each node starts in its
own community numbered by position. -/
def statusInitGo (G : NXGraph ℤ ℚ) : List ℤ → ℤ → LStatus → LRes LStatus
  | [], _, st => .ok st
  | n :: rest, count, st =>
    let deg := degree G n
    if deg < 0 then .err .badDegree
    else
      let loopw := get_edge_data G n n 0
      statusInitGo G rest (count + 1)
        { node2com := dset st.node2com n count
          total_weight := st.total_weight
          degrees := dset st.degrees count deg
          gdegrees := dset st.gdegrees n deg
          internals := dset st.internals count loopw
          loops := dset st.loops n loopw }

/-- Model of `Status.init(graph, weight)`. -/
def statusInit (G : NXGraph ℤ ℚ) : LRes LStatus :=
  statusInitGo G G.nodes 0
    { node2com := [], total_weight := gsize G, degrees := [], gdegrees := []
      internals := [], loops := [] }

/-- Model of `__neighcom`: weight from `node` to each community represented
among its neighbours (self excluded). -/
def neighcom (node : ℤ) (G : NXGraph ℤ ℚ) (st : LStatus) : List (ℤ × ℚ) :=
  (adjList G node).foldl (fun weights p =>
    if p.1 = node then weights
    else dset weights (dget st.node2com p.1 0)
      (dget weights (dget st.node2com p.1 0) 0 + p.2)) []

/-- Model of `__remove(node, com, weight, status)`. -/
def statusRemove (node com : ℤ) (weight : ℚ) (st : LStatus) : LStatus :=
  { st with
    degrees := dset st.degrees com (dget st.degrees com 0 - dget st.gdegrees node 0)
    internals := dset st.internals com
      (dget st.internals com 0 - weight - dget st.loops node 0)
    node2com := dset st.node2com node (-1) }

/-- Model of `__insert(node, com, weight, status)`. -/
def statusInsert (node com : ℤ) (weight : ℚ) (st : LStatus) : LStatus :=
  { st with
    node2com := dset st.node2com node com
    degrees := dset st.degrees com (dget st.degrees com 0 + dget st.gdegrees node 0)
    internals := dset st.internals com
      (dget st.internals com 0 + weight + dget st.loops node 0) }

/-- The library's `__MIN` modularity-gain threshold `0.0000001`. -/
def qMIN : ℚ := 1 / 10000000

/-- Model of `__modularity(status, resolution)`. -/
def statusModularity (st : LStatus) (res : ℚ) : ℚ :=
  let links := st.total_weight
  ((st.node2com.map Prod.snd).dedup).foldl (fun acc com =>
    if 0 < links then
      acc + (dget st.internals com 0 * res / links
        - (dget st.degrees com 0 / (2 * links)) ^ 2)
    else acc) 0

/-- Visit of one node inside a pass of `__one_level`: try moving it to the
neighbouring community of strictly greatest positive modularity gain.
State is `(status, shuffle-call counter, modified flag)`. -/
def oneNodeVisit (sh : ShuffleModel) (seed : ℕ) (G : NXGraph ℤ ℚ) (res : ℚ)
    (acc : LStatus × ℕ × Bool) (node : ℤ) : LStatus × ℕ × Bool :=
  let st := acc.1
  let c := acc.2.1
  let modified := acc.2.2
  let com_node := dget st.node2com node 0
  let degc_totw := dget st.gdegrees node 0 / (st.total_weight * 2)
  let neigh := neighcom node G st
  let remove_cost := -(dget neigh com_node 0)
    + res * (dget st.degrees com_node 0 - dget st.gdegrees node 0) * degc_totw
  let st1 := statusRemove node com_node (dget neigh com_node 0) st
  let cands := sh.pairsShuffle seed c neigh
  let best := cands.foldl (fun (b : ℤ × ℚ) p =>
    let incr := remove_cost + p.2 - res * dget st1.degrees p.1 0 * degc_totw
    if b.2 < incr then (p.1, incr) else b) (com_node, 0)
  let st2 := statusInsert node best.1 (dget neigh best.1 0) st1
  (st2, c + 1, modified || decide (best.1 ≠ com_node))

/-- One pass of `__one_level`: visit every node, in shuffled order. -/
def onePass (sh : ShuffleModel) (seed : ℕ) (G : NXGraph ℤ ℚ) (res : ℚ)
    (st : LStatus) (c : ℕ) : LStatus × ℕ × Bool :=
  (sh.nodesShuffle seed c G.nodes).foldl (oneNodeVisit sh seed G res) (st, c + 1, false)

/-- The `while modified` loop of `__one_level`, with fuel replacing the
unbounded loop; stops when a pass moves no node or gains less than `__MIN`. -/
def oneLevelGo (sh : ShuffleModel) (seed : ℕ) (G : NXGraph ℤ ℚ) (res : ℚ) :
    ℕ → LStatus → ℕ → ℚ → LRes (LStatus × ℕ)
  | 0, _, _, _ => .err .outOfFuel
  | fuel + 1, st, c, prev_mod =>
    let r := onePass sh seed G res st c
    let new_mod := statusModularity r.1 res
    if new_mod - prev_mod < qMIN then .ok (r.1, r.2.1)
    else if r.2.2 then oneLevelGo sh seed G res fuel r.1 r.2.1 new_mod
    else .ok (r.1, r.2.1)

/-- Model of `__one_level(graph, status, weight, resolution, random_state)`. -/
def one_level (sh : ShuffleModel) (seed : ℕ) (G : NXGraph ℤ ℚ) (res : ℚ)
    (passFuel : ℕ) (st : LStatus) (c : ℕ) : LRes (LStatus × ℕ) :=
  oneLevelGo sh seed G res passFuel st c (statusModularity st res)

/-- Ascending sort of an integer list (CPython small-int `set` iteration
order used by `__renumber`). -/
def zsort (l : List ℤ) : List ℤ := List.insertionSort (· ≤ ·) l

/-- Model of `__renumber(dictionary)`: rename the community values onto
`0..n-1`, keeping values already in range. -/
def renumber (d : List (ℤ × ℤ)) : List (ℤ × ℤ) :=
  let values := zsort (d.map Prod.snd).dedup
  let target := (List.range values.length).map (fun i => (i : ℤ))
  if values = target then d
  else
    let keep := values.filter (fun v => decide (v ∈ target))
    let oldvals := values.filter (fun v => decide (v ∉ target))
    let newvals := target.filter (fun v => decide (v ∉ values))
    let ren := keep.zip keep ++ oldvals.zip newvals
    d.map (fun p => (p.1, dget ren p.2 0))

/-- Model of `induced_graph(partition, graph, weight)`: one node per
community, edge weights summed over member pairs (internal edges become
self-loops). -/
def induced_graph (partition : List (ℤ × ℤ)) (G : NXGraph ℤ ℚ) : NXGraph ℤ ℚ :=
  let ret0 : NXGraph ℤ ℚ := { nodes := (partition.map Prod.snd).foldl addNode []
                              edges := [] }
  (nxEdges G).foldl (fun ret e =>
    let com1 := dget partition e.1 0
    let com2 := dget partition e.2.1 0
    add_edge ret com1 com2 (get_edge_data ret com1 com2 0 + e.2.2)) ret0

/-- Singleton partition `{node: index}` returned for graphs without edges. -/
def enumeratePart (nodes : List ℤ) : List (ℤ × ℤ) :=
  nodes.enum.map (fun p => (p.2, (p.1 : ℤ)))

/-- The level loop of `generate_dendrogram` (`while True`), with fuel. -/
def dendrogramLoop (sh : ShuffleModel) (seed : ℕ) (res : ℚ) (passFuel : ℕ) :
    ℕ → NXGraph ℤ ℚ → LStatus → ℕ → List (List (ℤ × ℤ)) → ℚ →
    LRes (List (List (ℤ × ℤ)))
  | 0, _, _, _, _, _ => .err .outOfFuel
  | fuel + 1, cg, st, c, acc, mod_ =>
    (one_level sh seed cg res passFuel st c).bind (fun r =>
      let new_mod := statusModularity r.1 res
      if new_mod - mod_ < qMIN then .ok acc
      else
        let partition := renumber r.1.node2com
        let cg2 := induced_graph partition cg
        (statusInit cg2).bind (fun st2 =>
          dendrogramLoop sh seed res passFuel fuel cg2 st2 r.2 (acc ++ [partition])
            new_mod))

/-- Model of `generate_dendrogram(graph, part_init=None, weight='weight',
resolution, randomize, random_state)`. -/
def generate_dendrogram (sh : ShuffleModel) (passFuel levelFuel : ℕ)
    (G : NXGraph ℤ ℚ) (res : ℚ) (randomize : Option Bool)
    (randomState : Option ℕ) (ambientSeed : ℕ) : LRes (List (List (ℤ × ℤ))) :=
  (resolveSeed randomize randomState ambientSeed).bind (fun seed =>
    if G.edges.length = 0 then .ok [enumeratePart G.nodes]
    else
      (statusInit G).bind (fun st =>
        (one_level sh seed G res passFuel st 0).bind (fun r =>
          let new_mod := statusModularity r.1 res
          let partition := renumber r.1.node2com
          let cg := induced_graph partition G
          (statusInit cg).bind (fun st2 =>
            dendrogramLoop sh seed res passFuel levelFuel cg st2 r.2 [partition]
              new_mod))))

/-- Model of `partition_at_level(dendrogram, level)`: compose the per-level
assignments down to the original nodes. -/
def partition_at_level (dendo : List (List (ℤ × ℤ))) (level : ℕ) : List (ℤ × ℤ) :=
  ((List.range level).map (fun i => i + 1)).foldl
    (fun p idx => p.map (fun kv => (kv.1, dget (dendo.getD idx []) kv.2 0)))
    (dendo.headD [])

/-- Model of `community_louvain.best_partition`. -/
def best_partition (sh : ShuffleModel) (passFuel levelFuel : ℕ) (G : NXGraph ℤ ℚ)
    (res : ℚ) (randomize : Option Bool) (randomState : Option ℕ)
    (ambientSeed : ℕ) : LRes (List (ℤ × ℤ)) :=
  (generate_dendrogram sh passFuel levelFuel G res randomize randomState
      ambientSeed).bind (fun dendo =>
    .ok (partition_at_level dendo (dendo.length - 1)))

/-- Model of the public `community_louvain.modularity(partition, graph)`;
raises (`noLink`) when the graph has zero total weight. -/
def modularity (partition : List (ℤ × ℤ)) (G : NXGraph ℤ ℚ) : LRes ℚ :=
  let links := gsize G
  if links = 0 then .err .noLink
  else
    let id := G.nodes.foldl (fun (acc : List (ℤ × ℚ) × List (ℤ × ℚ)) node =>
      let com := dget partition node 0
      let deg2 := dset acc.2 com (dget acc.2 com 0 + degree G node)
      let inc2 := (adjList G node).foldl (fun inc p =>
        if dget partition p.1 0 = com then
          (if p.1 = node then dset inc com (dget inc com 0 + p.2)
           else dset inc com (dget inc com 0 + p.2 / 2))
        else inc) acc.1
      (inc2, deg2)) ([], [])
    .ok (((partition.map Prod.snd).dedup).foldl (fun racc com =>
      racc + (dget id.1 com 0 / links - (dget id.2 com 0 / (2 * links)) ^ 2)) 0)

/-- One step of the grouping loop of `compute_communities`:
`communities.setdefault(community_id, []).append(node)` for the entry
`kv = (node, community_id)`. -/
def groupStep (comms : List (ℤ × List ℤ)) (kv : ℤ × ℤ) : List (ℤ × List ℤ) :=
  if comms.any (fun c => decide (c.1 = kv.2)) then
    comms.map (fun c => if c.1 = kv.2 then (c.1, c.2 ++ [kv.1]) else c)
  else comms ++ [(kv.2, [kv.1])]

/-- Grouping loop of `compute_communities`, over `partition.items()`. -/
def groupCommunities (partition : List (ℤ × ℤ)) : List (ℤ × List ℤ) :=
  partition.foldl groupStep []

/-- Model of `compute_communities(G)` in find-communities-louvain.py:
`best_partition(G, resolution=1, randomize=False)`, then the library
modularity of the result, then the community grouping. -/
def compute_communities (sh : ShuffleModel) (passFuel levelFuel : ℕ)
    (ambientSeed : ℕ) (G : NXGraph ℤ ℚ) :
    LRes (List (ℤ × ℤ) × List (ℤ × List ℤ) × ℚ) :=
  (best_partition sh passFuel levelFuel G 1 (some false) none ambientSeed).bind
    (fun partition =>
      (modularity partition G).bind (fun m =>
        .ok (partition, groupCommunities partition, m)))

/-! ## Lemmas and claim theorems -/

section GraphModelProofs

variable {ν α : Type} [DecidableEq ν]

/-- The node-insertion loop of `build_graph` does not touch the edge list. -/
theorem build_graph_edges (nodes_df : List ν) (edges_df : List (ν × ν × α)) :
    (build_graph nodes_df edges_df).edges
      = (edges_df.foldl (fun g e => add_edge g e.1 e.2.1 e.2.2)
          { nodes := [], edges := [] }).edges := rfl

/-- Matching an unordered pair ignores the stored weight. -/
theorem edgeMatches_irrel_weight (u v a b : ν) (w w2 : α) :
    edgeMatches u v ((a, b, w2) : ν × ν × α) = edgeMatches u v ((a, b, w) : ν × ν × α) :=
  rfl

/-- If the inserted pair `(a, b)` is the unordered pair `{u, v}`, matching
against `(a, b)` is the same as matching against `(u, v)`. -/
theorem edgeMatches_same_pair {u v a b : ν} {w : α}
    (h : edgeMatches u v ((a, b, w) : ν × ν × α) = true) (e : ν × ν × α) :
    edgeMatches a b e = edgeMatches u v e := by
  obtain ⟨x, y, wt⟩ := e
  simp only [edgeMatches, Bool.or_eq_true, Bool.and_eq_true, decide_eq_true_eq] at h
  rcases h with ⟨h1, h2⟩ | ⟨h1, h2⟩ <;> subst h1 <;> subst h2
  · rfl
  · simp only [edgeMatches]
    exact Bool.or_comm _ _

/-- An edge matching the inserted pair `(a, b)` cannot match `(u, v)` when
the entry `(a, b, w)` itself does not. -/
theorem edgeMatches_not_same_pair {u v a b : ν} {w : α}
    (h : edgeMatches u v ((a, b, w) : ν × ν × α) = false) (e : ν × ν × α)
    (he : edgeMatches a b e = true) : edgeMatches u v e = false := by
  obtain ⟨x, y, wt⟩ := e
  simp only [edgeMatches, Bool.or_eq_true, Bool.and_eq_true, decide_eq_true_eq,
    Bool.or_eq_false_iff, Bool.and_eq_false_iff, decide_eq_false_iff_not] at h he ⊢
  rcases he with ⟨rfl, rfl⟩ | ⟨rfl, rfl⟩ <;> tauto

/-- Updating the weight of the `(a, b)` edge neither creates nor destroys
nor modifies edges matching a different unordered pair `(u, v)`. -/
theorem filter_update_other {u v a b : ν} {w : α}
    (h : edgeMatches u v ((a, b, w) : ν × ν × α) = false) (l : List (ν × ν × α)) :
    (l.map (fun e => if edgeMatches a b e then (e.1, e.2.1, w) else e)).filter
        (edgeMatches u v)
      = l.filter (edgeMatches u v) := by
  induction l with
  | nil => rfl
  | cons e t ih =>
    by_cases hab : edgeMatches a b e = true
    · have huv := edgeMatches_not_same_pair h e hab
      obtain ⟨x, y, wt⟩ := e
      have huv2 : edgeMatches u v ((x, y, w) : ν × ν × α) = false :=
        (edgeMatches_irrel_weight u v x y w wt).trans huv
      simp [List.filter_cons, hab, huv, huv2, ih]
    · simp only [Bool.not_eq_true] at hab
      simp [List.filter_cons, hab, ih]

/-- Same as `filter_update_other` for the first-match lookup. -/
theorem find_update_other {u v a b : ν} {w : α}
    (h : edgeMatches u v ((a, b, w) : ν × ν × α) = false) (l : List (ν × ν × α)) :
    (l.map (fun e => if edgeMatches a b e then (e.1, e.2.1, w) else e)).find?
        (edgeMatches u v)
      = l.find? (edgeMatches u v) := by
  induction l with
  | nil => rfl
  | cons e t ih =>
    by_cases hab : edgeMatches a b e = true
    · have huv := edgeMatches_not_same_pair h e hab
      obtain ⟨x, y, wt⟩ := e
      have huv2 : edgeMatches u v ((x, y, w) : ν × ν × α) = false :=
        (edgeMatches_irrel_weight u v x y w wt).trans huv
      simp [List.find?_cons, hab, huv, huv2, ih]
    · simp only [Bool.not_eq_true] at hab
      by_cases huv : edgeMatches u v e = true <;>
        simp [List.find?_cons, hab, huv, ih]

/-- Updating the weight of the `{u, v}` edge keeps the number of matching
stored edges. -/
theorem filter_update_same {u v a b : ν} {w : α}
    (h : edgeMatches u v ((a, b, w) : ν × ν × α) = true) (l : List (ν × ν × α)) :
    ((l.map (fun e => if edgeMatches a b e then (e.1, e.2.1, w) else e)).filter
        (edgeMatches u v)).length
      = (l.filter (edgeMatches u v)).length := by
  induction l with
  | nil => rfl
  | cons e t ih =>
    rw [List.map_cons, List.filter_cons, List.filter_cons]
    rw [edgeMatches_same_pair h e]
    by_cases huv : edgeMatches u v e = true
    · obtain ⟨x, y, wt⟩ := e
      have huv2 : edgeMatches u v ((x, y, w) : ν × ν × α) = true :=
        (edgeMatches_irrel_weight u v x y w wt).trans huv
      simp [huv, huv2, ih]
    · simp only [Bool.not_eq_true] at huv
      simp [huv, ih]

/-- After updating the `{u, v}` edge's weight to `w`, the first matching
stored edge carries weight `w`. -/
theorem find_update_same {u v a b : ν} {w : α}
    (h : edgeMatches u v ((a, b, w) : ν × ν × α) = true) (l : List (ν × ν × α))
    (hany : l.any (edgeMatches u v) = true) :
    ((l.map (fun e => if edgeMatches a b e then (e.1, e.2.1, w) else e)).find?
        (edgeMatches u v)).map (fun e => e.2.2) = some w := by
  induction l with
  | nil => simp at hany
  | cons e t ih =>
    by_cases huv : edgeMatches u v e = true
    · have hab : edgeMatches a b e = true := (edgeMatches_same_pair h e).trans huv
      obtain ⟨x, y, wt⟩ := e
      have huv2 : edgeMatches u v ((x, y, w) : ν × ν × α) = true :=
        (edgeMatches_irrel_weight u v x y w wt).trans huv
      rw [List.map_cons, if_pos hab, List.find?_cons_of_pos _ huv2]
      rfl
    · have huv0 : edgeMatches u v e = false := by simpa using huv
      have hab : edgeMatches a b e = false := (edgeMatches_same_pair h e).trans huv0
      simp only [List.any_cons, huv0, Bool.false_or] at hany
      rw [List.map_cons, if_neg (by simp [hab]), List.find?_cons_of_neg _ (by simp [huv0])]
      exact ih hany

/-- A list with no match filters to nothing. -/
theorem filter_eq_nil_of_any_false {p : ν × ν × α → Bool} {l : List (ν × ν × α)}
    (h : l.any p = false) : l.filter p = [] := by
  induction l with
  | nil => rfl
  | cons e t ih =>
    simp only [List.any_cons, Bool.or_eq_false_iff] at h
    simp [List.filter_cons, h.1, ih h.2]

/-- A list with no match finds nothing. -/
theorem find_eq_none_of_any_false {p : ν × ν × α → Bool} {l : List (ν × ν × α)}
    (h : l.any p = false) : l.find? p = none := by
  induction l with
  | nil => rfl
  | cons e t ih =>
    simp only [List.any_cons, Bool.or_eq_false_iff] at h
    simp [List.find?_cons, h.1, ih h.2]

/-- Effect of one `add_edge gf a b w` on the `{u, v}`-matching stored
edges, split by whether the inserted pair is `{u, v}` and whether it is
already stored. -/
theorem add_edge_spec (u v a b : ν) (w : α) (gf : NXGraph ν α)
    (hlen : (gf.edges.filter (edgeMatches u v)).length ≤ 1) :
    (((add_edge gf a b w).edges.filter (edgeMatches u v)).length
      = if edgeMatches u v ((a, b, w) : ν × ν × α) = true then 1
        else (gf.edges.filter (edgeMatches u v)).length)
    ∧ (((add_edge gf a b w).edges.find? (edgeMatches u v)).map (fun e => e.2.2)
      = if edgeMatches u v ((a, b, w) : ν × ν × α) = true then some w
        else (gf.edges.find? (edgeMatches u v)).map (fun e => e.2.2)) := by
  by_cases hm : edgeMatches u v ((a, b, w) : ν × ν × α) = true
  · by_cases hany : gf.edges.any (edgeMatches u v) = true
    · have hany2 : gf.edges.any (edgeMatches a b) = true := by
        rw [List.any_eq_true] at hany ⊢
        obtain ⟨x, hx, hpx⟩ := hany
        exact ⟨x, hx, by rw [edgeMatches_same_pair hm x]; exact hpx⟩
      have hglen : 1 ≤ (gf.edges.filter (edgeMatches u v)).length := by
        rw [List.any_eq_true] at hany
        obtain ⟨x, hx, hpx⟩ := hany
        have hx2 : x ∈ gf.edges.filter (edgeMatches u v) :=
          List.mem_filter.mpr ⟨hx, hpx⟩
        exact List.length_pos.mpr (List.ne_nil_of_mem hx2)
      refine ⟨?_, ?_⟩
      · rw [if_pos hm]
        show ((if gf.edges.any (edgeMatches a b) then _ else _ :
            List (ν × ν × α)).filter (edgeMatches u v)).length = 1
        rw [if_pos hany2, filter_update_same hm gf.edges]
        omega
      · rw [if_pos hm]
        show ((if gf.edges.any (edgeMatches a b) then _ else _ :
            List (ν × ν × α)).find? (edgeMatches u v)).map (fun e => e.2.2) = some w
        rw [if_pos hany2]
        exact find_update_same hm gf.edges hany
    · have hany0 : gf.edges.any (edgeMatches u v) = false := by
        simpa using hany
      have hany2 : gf.edges.any (edgeMatches a b) = false := by
        rw [Bool.eq_false_iff]
        intro hx
        rw [List.any_eq_true] at hx
        obtain ⟨x, hxm, hpx⟩ := hx
        have : edgeMatches u v x = true := by
          rw [← edgeMatches_same_pair hm x]; exact hpx
        have : gf.edges.any (edgeMatches u v) = true :=
          List.any_eq_true.mpr ⟨x, hxm, this⟩
        rw [hany0] at this
        exact Bool.false_ne_true this
      refine ⟨?_, ?_⟩
      · rw [if_pos hm]
        show ((if gf.edges.any (edgeMatches a b) then _ else _ :
            List (ν × ν × α)).filter (edgeMatches u v)).length = 1
        rw [if_neg (by simp [hany2]), List.filter_append,
          filter_eq_nil_of_any_false hany0]
        simp [List.filter_cons, hm]
      · rw [if_pos hm]
        show ((if gf.edges.any (edgeMatches a b) then _ else _ :
            List (ν × ν × α)).find? (edgeMatches u v)).map (fun e => e.2.2) = some w
        rw [if_neg (by simp [hany2]), List.find?_append,
          find_eq_none_of_any_false hany0]
        simp [List.find?_cons, hm]
  · have hm0 : edgeMatches u v ((a, b, w) : ν × ν × α) = false := by simpa using hm
    by_cases hany2 : gf.edges.any (edgeMatches a b) = true
    · refine ⟨?_, ?_⟩
      · rw [if_neg hm]
        show ((if gf.edges.any (edgeMatches a b) then _ else _ :
            List (ν × ν × α)).filter (edgeMatches u v)).length = _
        rw [if_pos hany2, filter_update_other hm0 gf.edges]
      · rw [if_neg hm]
        show ((if gf.edges.any (edgeMatches a b) then _ else _ :
            List (ν × ν × α)).find? (edgeMatches u v)).map (fun e => e.2.2) = _
        rw [if_pos hany2, find_update_other hm0 gf.edges]
    · refine ⟨?_, ?_⟩
      · rw [if_neg hm]
        show ((if gf.edges.any (edgeMatches a b) then _ else _ :
            List (ν × ν × α)).filter (edgeMatches u v)).length = _
        rw [if_neg hany2, List.filter_append]
        simp [List.filter_cons, hm0]
      · rw [if_neg hm]
        show ((if gf.edges.any (edgeMatches a b) then _ else _ :
            List (ν × ν × α)).find? (edgeMatches u v)).map (fun e => e.2.2) = _
        rw [if_neg hany2, List.find?_append]
        simp [List.find?_cons, hm0]

/-- Folding `add_edge` over an entry list: at most one stored edge matches
a given unordered pair, and the first matching stored edge carries the
weight of the last matching entry (later insertions overwrite). -/
theorem fold_add_edge_spec (u v : ν) (g : NXGraph ν α)
    (hg : (g.edges.filter (edgeMatches u v)).length ≤ 1) (es : List (ν × ν × α)) :
    (((es.foldl (fun h e => add_edge h e.1 e.2.1 e.2.2) g).edges.filter
        (edgeMatches u v)).length
      = min ((g.edges.filter (edgeMatches u v)).length
          + (es.filter (edgeMatches u v)).length) 1)
    ∧ (((es.foldl (fun h e => add_edge h e.1 e.2.1 e.2.2) g).edges.find?
        (edgeMatches u v)).map (fun e => e.2.2)
      = match (es.filter (edgeMatches u v)).getLast? with
        | some e => some e.2.2
        | none => (g.edges.find? (edgeMatches u v)).map (fun e => e.2.2)) := by
  induction es using List.reverseRecOn with
  | nil =>
    refine ⟨?_, rfl⟩
    simp only [List.foldl_nil, List.filter_nil, List.length_nil, Nat.add_zero]
    omega
  | append_singleton es e ih =>
    obtain ⟨a, b, w⟩ := e
    obtain ⟨ihl, ihf⟩ := ih
    have hlenf : ((es.foldl (fun h e => add_edge h e.1 e.2.1 e.2.2) g).edges.filter
        (edgeMatches u v)).length ≤ 1 := by rw [ihl]; omega
    obtain ⟨hstepl, hstepf⟩ := add_edge_spec u v a b w _ hlenf
    rw [List.foldl_append] at *
    by_cases hm : edgeMatches u v ((a, b, w) : ν × ν × α) = true
    · refine ⟨?_, ?_⟩
      · rw [List.foldl_cons, List.foldl_nil] at *
        rw [hstepl, if_pos hm, List.filter_append]
        have : (([((a : ν), (b : ν), (w : α))]).filter (edgeMatches u v)).length = 1 := by
          simp [List.filter_cons, hm]
        rw [List.length_append, this]
        omega
      · rw [List.foldl_cons, List.foldl_nil] at *
        rw [hstepf, if_pos hm, List.filter_append]
        have h1 : ([((a : ν), (b : ν), (w : α))]).filter (edgeMatches u v)
            = [(a, b, w)] := by simp [List.filter_cons, hm]
        rw [h1, List.getLast?_concat]
    · have hm0 : edgeMatches u v ((a, b, w) : ν × ν × α) = false := by simpa using hm
      have h0 : (([((a : ν), (b : ν), (w : α))]).filter (edgeMatches u v)) = [] := by
        simp [List.filter_cons, hm0]
      refine ⟨?_, ?_⟩
      · rw [List.foldl_cons, List.foldl_nil] at *
        rw [hstepl, if_neg hm, List.filter_append, h0, List.append_nil]
        exact ihl
      · rw [List.foldl_cons, List.foldl_nil] at *
        rw [hstepf, if_neg hm, List.filter_append, h0, List.append_nil]
        exact ihf

/-- C3 counterexample: inserting two entries for the same unordered pair
(1, 2) with weights 1/2 and 1/4 leaves stored weight 1/4 — the last
insertion, not the sum 3/4.  `networkx.Graph.add_edge` overwrites the
`weight` attribute; it does not accumulate. -/
theorem build_graph_overwrites_cex :
    getEdgeWeight (build_graph ([] : List ℕ)
        [((1 : ℕ), (2 : ℕ), (1/2 : ℚ)), (1, 2, 1/4)]) 1 2 = some (1/4)
      ∧ ¬ ((1/4 : ℚ) = 1/2 + 1/4) := by
  with_unfolding_all decide

/-- C3 amended: for every edge list and unordered node pair, the built
graph stores a single edge for that pair (no parallel edges), and its
weight is the weight of the LAST inserted entry for that pair — later
insertions overwrite earlier ones instead of summing. -/
theorem build_graph_single_edge_last_weight (nodes_df : List ν)
    (edges_df : List (ν × ν × α)) (u v : ν) :
    ((build_graph nodes_df edges_df).edges.filter (edgeMatches u v)).length
        = min (edges_df.filter (edgeMatches u v)).length 1
      ∧ getEdgeWeight (build_graph nodes_df edges_df) u v
        = ((edges_df.filter (edgeMatches u v)).getLast?).map (fun e => e.2.2) := by
  obtain ⟨hl, hf⟩ := fold_add_edge_spec u v
    ({ nodes := [], edges := [] } : NXGraph ν α) (by simp) edges_df
  constructor
  · rw [build_graph_edges, hl]
    simp
  · show ((build_graph nodes_df edges_df).edges.find? (edgeMatches u v)).map
        (fun e => e.2.2) = _
    rw [build_graph_edges, hf]
    cases hlast : (edges_df.filter (edgeMatches u v)).getLast? <;> simp

/-- C4 counterexample: a self-loop insertion (1, 1, 1) and a non-positive
weight insertion (1, 2, -1) are both stored by `build_graph` instead of
being rejected — no `InvalidEdgeError` exists anywhere in the code. -/
theorem add_edge_no_rejection_cex :
    (build_graph ([] : List ℕ) [((1 : ℕ), (1 : ℕ), (1 : ℚ))]).edges = [(1, 1, 1)]
      ∧ (build_graph ([] : List ℕ) [((1 : ℕ), (2 : ℕ), (-1 : ℚ))]).edges
          = [(1, 2, -1)] := by
  with_unfolding_all decide

/-- C4 amended: edge ingestion performs no validation at all.  For every
graph and every insertion — including self-loops `u = v` and arbitrary
(zero or negative) weights `w` — the inserted edge is stored with weight
`w`; no insertion is rejected and no error is raised. -/
theorem add_edge_accepts_everything (g : NXGraph ν α) (u v : ν) (w : α) :
    getEdgeWeight (add_edge g u v w) u v = some w := by
  have hm : edgeMatches u v ((u, v, w) : ν × ν × α) = true := by
    simp [edgeMatches]
  by_cases hany : g.edges.any (edgeMatches u v) = true
  · show ((if g.edges.any (edgeMatches u v) then _ else _ :
        List (ν × ν × α)).find? (edgeMatches u v)).map (fun e => e.2.2) = some w
    rw [if_pos hany]
    exact find_update_same hm g.edges hany
  · have hany0 : g.edges.any (edgeMatches u v) = false := by simpa using hany
    show ((if g.edges.any (edgeMatches u v) then _ else _ :
        List (ν × ν × α)).find? (edgeMatches u v)).map (fun e => e.2.2) = some w
    rw [if_neg (by simp [hany0]), List.find?_append, find_eq_none_of_any_false hany0]
    simp [List.find?_cons, hm]

end GraphModelProofs

section LouvainBoundary

/-- C5 counterexample: on the empty graph, `compute_communities` does not
return the empty partition with Q = 0; the `community_louvain.modularity`
call raises `ValueError("A graph without link has an undefined
modularity")`, which the caller does not catch. -/
theorem compute_communities_empty_cex :
    compute_communities ⟨fun _ _ l => l, fun _ _ l => l⟩ 10 10 0
        { nodes := [], edges := [] }
      ≠ LRes.ok ([], [], 0)
    ∧ compute_communities ⟨fun _ _ l => l, fun _ _ l => l⟩ 10 10 0
        { nodes := [], edges := [] }
      = LRes.err .noLink := by
  refine ⟨by decide, by decide⟩

/-- C5 amended: for the empty graph, `best_partition` does return the
empty partition, but `compute_communities` then raises `ValueError`
(undefined modularity for a graph without links) instead of reporting
Q = 0. -/
theorem compute_communities_empty_graph (sh : ShuffleModel) (pf lf amb : ℕ) :
    best_partition sh pf lf { nodes := [], edges := [] } 1 (some false) none amb
        = LRes.ok []
    ∧ compute_communities sh pf lf amb { nodes := [], edges := [] }
        = LRes.err .noLink :=
  ⟨rfl, rfl⟩

/-- C6: determinism.  `compute_communities` calls
`best_partition(..., randomize=False)`, which pins the random state to
seed 0; the ambient (process-wide, unseeded) random source is never
consulted, so two runs on identical input give identical results whatever
the ambient state is.  Node visitation derives from the insertion-ordered
node list, never from unordered iteration. -/
theorem compute_communities_seed_independent (sh : ShuffleModel)
    (passFuel levelFuel : ℕ) (G : NXGraph ℤ ℚ) (s1 s2 : ℕ) :
    compute_communities sh passFuel levelFuel s1 G
      = compute_communities sh passFuel levelFuel s2 G := rfl

/-- C7 counterexample: for a single node 5 and no edges, the partition is
`{5: 0}` as claimed, but `compute_communities` raises `ValueError`
(undefined modularity) rather than reporting Q = 0. -/
theorem single_node_cex :
    compute_communities ⟨fun _ _ l => l, fun _ _ l => l⟩ 10 10 0
        { nodes := [5], edges := [] }
      ≠ LRes.ok ([(5, 0)], [(0, [5])], 0)
    ∧ compute_communities ⟨fun _ _ l => l, fun _ _ l => l⟩ 10 10 0
        { nodes := [5], edges := [] }
      = LRes.err .noLink := by
  refine ⟨by decide, by decide⟩

/-- C7 amended: for a single-node graph, `best_partition` maps the node to
community id 0; `compute_communities` then raises `ValueError` instead of
reporting Q = 0; and `compute_global_layout` on the resulting single
community places the node exactly at the community anchor `(R, 0)`
(angle `2π·0/1 = 0` on the circle of radius `R`), for every local layout. -/
theorem single_node_amended (sh : ShuffleModel) (pf lf amb : ℕ)
    (L : ℤ → ℤ → ℝ × ℝ) (R : ℝ) :
    best_partition sh pf lf { nodes := [5], edges := [] } 1 (some false) none amb
        = LRes.ok [(5, 0)]
    ∧ compute_communities sh pf lf amb { nodes := [5], edges := [] }
        = LRes.err .noLink
    ∧ posOf (compute_global_layout [(0, [5])] L R) 5 = (R, 0) := by
  refine ⟨rfl, rfl, ?_⟩
  have ha : assignedAnchor [(0, [5])] R 0
      = (R * Real.cos (angleOf 0 1), R * Real.sin (angleOf 0 1)) := rfl
  have hang : angleOf 0 1 = 0 := by
    simp [angleOf]
  have hL : compute_global_layout [(0, [5])] L R
      = [(5, ((L 0 5).1 - (centroid [L 0 5]).1 + (assignedAnchor [(0, [5])] R 0).1,
              (L 0 5).2 - (centroid [L 0 5]).2 + (assignedAnchor [(0, [5])] R 0).2))] := by
    simp [compute_global_layout]
  rw [posOf, hL]
  simp only [List.find?_cons, decide_True, decide_eq_true_eq]
  have hc : centroid [L 0 5] = L 0 5 := by
    simp [centroid]
  rw [hc, ha, hang]
  simp

end LouvainBoundary

section LayoutProofs

/-- First-match lookup in an association list with distinct keys finds the
unique entry. -/
theorem find_eq_of_nodup_keys {κ β : Type} [DecidableEq κ] {l : List (κ × β)} {k : κ}
    {b : β} (nd : (l.map Prod.fst).Nodup) (h : (k, b) ∈ l) :
    l.find? (fun p => decide (p.1 = k)) = some (k, b) := by
  induction l with
  | nil => simp at h
  | cons e t ih =>
    rw [List.map_cons, List.nodup_cons] at nd
    rcases List.mem_cons.mp h with heq | ht
    · subst heq
      exact List.find?_cons_of_pos _ (by simp)
    · have hk : ¬ (e.1 = k) := by
        intro hk
        exact nd.1 (hk ▸ List.mem_map.mpr ⟨(k, b), ht, rfl⟩)
      rw [List.find?_cons_of_neg _ (by simp [hk])]
      exact ih nd.2 ht

/-- The keys of the composed layout are exactly the communities' members,
in community order. -/
theorem compute_global_layout_keys (communities : List (ℤ × List ℤ))
    (L : ℤ → ℤ → ℝ × ℝ) (R : ℝ) :
    (compute_global_layout communities L R).map Prod.fst
      = communities.flatMap (fun c => c.2) := by
  simp [compute_global_layout, List.map_flatMap, List.map_map, Function.comp_def]

/-- Explicit formula for the final coordinate of a member of a community,
valid when the communities' member lists have no duplicates across or
within communities. -/
theorem posOf_layout (communities : List (ℤ × List ℤ)) (L : ℤ → ℤ → ℝ × ℝ) (R : ℝ)
    (hnd : (communities.flatMap (fun c => c.2)).Nodup)
    {c : ℤ × List ℤ} (hc : c ∈ communities) {v : ℤ} (hv : v ∈ c.2) :
    posOf (compute_global_layout communities L R) v
      = ((L c.1 v).1 - (centroid (c.2.map (L c.1))).1
            + (assignedAnchor communities R c.1).1,
         (L c.1 v).2 - (centroid (c.2.map (L c.1))).2
            + (assignedAnchor communities R c.1).2) := by
  have hmem : (v, ((L c.1 v).1 - (centroid (c.2.map (L c.1))).1
            + (assignedAnchor communities R c.1).1,
         (L c.1 v).2 - (centroid (c.2.map (L c.1))).2
            + (assignedAnchor communities R c.1).2))
      ∈ compute_global_layout communities L R := by
    rw [compute_global_layout]
    exact List.mem_flatMap.mpr ⟨c, hc, List.mem_map.mpr ⟨v, hv, rfl⟩⟩
  have hkeys : ((compute_global_layout communities L R).map Prod.fst).Nodup := by
    rw [compute_global_layout_keys]
    exact hnd
  rw [posOf, find_eq_of_nodup_keys hkeys hmem]

/-- Sum of an affine image of a list. -/
theorem sum_map_affine (l : List ℝ) (a b : ℝ) :
    (l.map (fun x => x - a + b)).sum = l.sum - l.length * a + l.length * b := by
  induction l with
  | nil => simp
  | cons x t ih =>
    simp only [List.map_cons, List.sum_cons, ih, List.length_cons]
    push_cast
    ring

/-- C1: for every partition of the nodes into non-empty communities with
pairwise-disjoint, duplicate-free member lists, and every local layout and
radius, the arithmetic mean of each community's final global coordinates
equals that community's assigned anchor, within absolute tolerance 1e-6
(in the exact-arithmetic model the difference is 0). -/
theorem layout_mean_eq_anchor (communities : List (ℤ × List ℤ))
    (L : ℤ → ℤ → ℝ × ℝ) (R : ℝ)
    (hnd : (communities.flatMap (fun c => c.2)).Nodup)
    (hne : ∀ c ∈ communities, c.2 ≠ []) :
    ∀ c ∈ communities,
      |(c.2.map (fun v => (posOf (compute_global_layout communities L R) v).1)).sum
          / (c.2.length : ℝ) - (assignedAnchor communities R c.1).1| ≤ 1 / 1000000
      ∧ |(c.2.map (fun v => (posOf (compute_global_layout communities L R) v).2)).sum
          / (c.2.length : ℝ) - (assignedAnchor communities R c.1).2| ≤ 1 / 1000000 := by
  intro c hc
  have hlen : (c.2.length : ℝ) ≠ 0 :=
    Nat.cast_ne_zero.mpr (List.length_pos.mpr (hne c hc)).ne'
  have hmap1 : c.2.map (fun v => (posOf (compute_global_layout communities L R) v).1)
      = ((c.2.map (L c.1)).map Prod.fst).map
          (fun x => x - (centroid (c.2.map (L c.1))).1
            + (assignedAnchor communities R c.1).1) := by
    rw [List.map_map, List.map_map]
    refine List.map_congr_left ?_
    intro v hv
    rw [Function.comp, Function.comp, posOf_layout communities L R hnd hc hv]
  have hmap2 : c.2.map (fun v => (posOf (compute_global_layout communities L R) v).2)
      = ((c.2.map (L c.1)).map Prod.snd).map
          (fun x => x - (centroid (c.2.map (L c.1))).2
            + (assignedAnchor communities R c.1).2) := by
    rw [List.map_map, List.map_map]
    refine List.map_congr_left ?_
    intro v hv
    rw [Function.comp, Function.comp, posOf_layout communities L R hnd hc hv]
  have hcent1 : (centroid (c.2.map (L c.1))).1
      = ((c.2.map (L c.1)).map Prod.fst).sum / (c.2.length : ℝ) := by
    rw [centroid]
    simp [List.length_map]
  have hcent2 : (centroid (c.2.map (L c.1))).2
      = ((c.2.map (L c.1)).map Prod.snd).sum / (c.2.length : ℝ) := by
    rw [centroid]
    simp [List.length_map]
  constructor
  · rw [hmap1, sum_map_affine, hcent1]
    simp only [List.length_map]
    rw [show ((c.2.map (L c.1)).map Prod.fst).sum
          - (c.2.length : ℝ) * (((c.2.map (L c.1)).map Prod.fst).sum / (c.2.length : ℝ))
          + (c.2.length : ℝ) * (assignedAnchor communities R c.1).1
        = (c.2.length : ℝ) * (assignedAnchor communities R c.1).1 by
      field_simp]
    rw [mul_div_cancel_left₀ _ hlen, sub_self, abs_zero]
    norm_num
  · rw [hmap2, sum_map_affine, hcent2]
    simp only [List.length_map]
    rw [show ((c.2.map (L c.1)).map Prod.snd).sum
          - (c.2.length : ℝ) * (((c.2.map (L c.1)).map Prod.snd).sum / (c.2.length : ℝ))
          + (c.2.length : ℝ) * (assignedAnchor communities R c.1).2
        = (c.2.length : ℝ) * (assignedAnchor communities R c.1).2 by
      field_simp]
    rw [mul_div_cancel_left₀ _ hlen, sub_self, abs_zero]
    norm_num

/-- C1 witness: community (0, [1, 2]) of a concrete two-community layout
with an explicit local layout and R = 7. -/
theorem layout_mean_eq_anchor_witness :
    |(([(1 : ℤ), 2]).map (fun v =>
        (posOf (compute_global_layout [((0 : ℤ), [(1 : ℤ), 2]), (1, [3])]
          (fun _ v => ((v : ℝ), (2 : ℝ) * (v : ℝ))) 7) v).1)).sum
        / (([(1 : ℤ), 2]).length : ℝ)
      - (assignedAnchor [((0 : ℤ), [(1 : ℤ), 2]), (1, [3])] 7 0).1| ≤ 1 / 1000000
    ∧ |(([(1 : ℤ), 2]).map (fun v =>
        (posOf (compute_global_layout [((0 : ℤ), [(1 : ℤ), 2]), (1, [3])]
          (fun _ v => ((v : ℝ), (2 : ℝ) * (v : ℝ))) 7) v).2)).sum
        / (([(1 : ℤ), 2]).length : ℝ)
      - (assignedAnchor [((0 : ℤ), [(1 : ℤ), 2]), (1, [3])] 7 0).2| ≤ 1 / 1000000 :=
  layout_mean_eq_anchor [((0 : ℤ), [(1 : ℤ), 2]), (1, [3])]
    (fun _ v => ((v : ℝ), (2 : ℝ) * (v : ℝ))) 7 (by decide) (by decide)
    ((0 : ℤ), [(1 : ℤ), 2]) (by decide)

/-- Position of the `k`-th element of a duplicate-free list. -/
theorem indexOf_get_of_nodup {l : List ℤ} (nd : l.Nodup) (k : ℕ) (hk : k < l.length) :
    List.indexOf (l.get ⟨k, hk⟩) l = k := by
  have h1 : List.indexOf (l.get ⟨k, hk⟩) l < l.length :=
    List.indexOf_lt_length.mpr (l.get_mem _ _)
  have h2 := List.indexOf_get h1
  have h3 := (nd.get_inj_iff).mp h2
  exact congrArg Fin.val h3

/-- C2: `compute_global_layout` sorts community ids ascending, assigns the
`k`-th (0-indexed) of `N` communities the anchor
`(R·cos(2πk/N), R·sin(2πk/N))`, and consecutive anchors differ in angle by
exactly `2π/N`. -/
theorem anchors_on_circle (communities : List (ℤ × List ℤ)) (R : ℝ)
    (hnd : (communities.map Prod.fst).Nodup) (hne : communities ≠ []) :
    List.Sorted (· ≤ ·) (sortedCommIds communities)
    ∧ (sortedCommIds communities).Perm (communities.map Prod.fst)
    ∧ (∀ k : ℕ, ∀ hk : k < (sortedCommIds communities).length,
        assignedAnchor communities R ((sortedCommIds communities).get ⟨k, hk⟩)
          = (R * Real.cos (angleOf k communities.length),
             R * Real.sin (angleOf k communities.length)))
    ∧ (∀ k : ℕ, k + 1 < communities.length →
        angleOf (k + 1) communities.length - angleOf k communities.length
          = 2 * Real.pi / communities.length) := by
  have hperm := List.perm_insertionSort (r := (· ≤ · : ℤ → ℤ → Prop))
    (communities.map Prod.fst)
  refine ⟨List.sorted_insertionSort _ _, hperm, ?_, ?_⟩
  · intro k hk
    have hndS : (sortedCommIds communities).Nodup := (hperm.nodup_iff).mpr hnd
    have hidx : List.indexOf ((sortedCommIds communities).get ⟨k, hk⟩)
        (sortedCommIds communities) = k := indexOf_get_of_nodup hndS k hk
    rw [assignedAnchor, hidx]
    rfl
  · intro k hkN
    have hN : (communities.length : ℝ) ≠ 0 := Nat.cast_ne_zero.mpr (by omega)
    simp only [angleOf]
    push_cast
    field_simp
    ring

/-- C2 witness: two communities with ids 0 and 1, R = 5; the anchor of
the sorted index-0 community and the 0-to-1 angle spacing, concretely. -/
theorem anchors_on_circle_witness :
    List.Sorted (· ≤ ·) (sortedCommIds [((0 : ℤ), [(1 : ℤ)]), (1, [2])])
    ∧ (sortedCommIds [((0 : ℤ), [(1 : ℤ)]), (1, [2])]).Perm
        ([((0 : ℤ), [(1 : ℤ)]), (1, [2])].map Prod.fst)
    ∧ assignedAnchor [((0 : ℤ), [(1 : ℤ)]), (1, [2])] 5
          ((sortedCommIds [((0 : ℤ), [(1 : ℤ)]), (1, [2])]).get ⟨0, by decide⟩)
        = (5 * Real.cos (angleOf 0 [((0 : ℤ), [(1 : ℤ)]), (1, [2])].length),
           5 * Real.sin (angleOf 0 [((0 : ℤ), [(1 : ℤ)]), (1, [2])].length))
    ∧ angleOf (0 + 1) [((0 : ℤ), [(1 : ℤ)]), (1, [2])].length
          - angleOf 0 [((0 : ℤ), [(1 : ℤ)]), (1, [2])].length
        = 2 * Real.pi / [((0 : ℤ), [(1 : ℤ)]), (1, [2])].length :=
  ⟨(anchors_on_circle [((0 : ℤ), [(1 : ℤ)]), (1, [2])] 5 (by decide) (by decide)).1,
   (anchors_on_circle [((0 : ℤ), [(1 : ℤ)]), (1, [2])] 5 (by decide) (by decide)).2.1,
   (anchors_on_circle [((0 : ℤ), [(1 : ℤ)]), (1, [2])] 5 (by decide)
      (by decide)).2.2.1 0 (by decide),
   (anchors_on_circle [((0 : ℤ), [(1 : ℤ)]), (1, [2])] 5 (by decide)
      (by decide)).2.2.2 0 (by decide)⟩

/-- C10: composition is a pure per-community translation — for any two
members u, v of the same community, the difference of their final global
coordinates equals the difference of their local coordinates exactly. -/
theorem layout_preserves_relative_positions (communities : List (ℤ × List ℤ))
    (L : ℤ → ℤ → ℝ × ℝ) (R : ℝ)
    (hnd : (communities.flatMap (fun c => c.2)).Nodup)
    {c : ℤ × List ℤ} (hc : c ∈ communities) {u v : ℤ} (hu : u ∈ c.2) (hv : v ∈ c.2) :
    (posOf (compute_global_layout communities L R) u).1
        - (posOf (compute_global_layout communities L R) v).1
      = (L c.1 u).1 - (L c.1 v).1
    ∧ (posOf (compute_global_layout communities L R) u).2
        - (posOf (compute_global_layout communities L R) v).2
      = (L c.1 u).2 - (L c.1 v).2 := by
  rw [posOf_layout communities L R hnd hc hu, posOf_layout communities L R hnd hc hv]
  constructor <;> ring

/-- C10 witness: nodes 1 and 2 in community 0 of a two-community layout. -/
theorem layout_preserves_relative_positions_witness :
    (posOf (compute_global_layout [((0 : ℤ), [(1 : ℤ), 2]), (1, [3])]
          (fun _ v => ((v : ℝ), (v : ℝ) * (v : ℝ))) 9) 1).1
        - (posOf (compute_global_layout [((0 : ℤ), [(1 : ℤ), 2]), (1, [3])]
          (fun _ v => ((v : ℝ), (v : ℝ) * (v : ℝ))) 9) 2).1
      = (((1 : ℤ) : ℝ)) - (((2 : ℤ) : ℝ))
    ∧ (posOf (compute_global_layout [((0 : ℤ), [(1 : ℤ), 2]), (1, [3])]
          (fun _ v => ((v : ℝ), (v : ℝ) * (v : ℝ))) 9) 1).2
        - (posOf (compute_global_layout [((0 : ℤ), [(1 : ℤ), 2]), (1, [3])]
          (fun _ v => ((v : ℝ), (v : ℝ) * (v : ℝ))) 9) 2).2
      = (((1 : ℤ) : ℝ)) * (((1 : ℤ) : ℝ)) - (((2 : ℤ) : ℝ)) * (((2 : ℤ) : ℝ)) :=
  layout_preserves_relative_positions [((0 : ℤ), [(1 : ℤ), 2]), (1, [3])]
    (fun _ v => ((v : ℝ), (v : ℝ) * (v : ℝ))) 9 (by decide)
    (List.mem_cons_self _ _) (List.mem_cons_self _ _)
    (List.mem_cons_of_mem _ (List.mem_cons_self _ _))

end LayoutProofs

section PipelineProofs

/-- Every edge row emitted by `calculate_edges` has the similarity weight
`1 / (1 + distance)` with a non-negative distance, hence weight in (0, 1]. -/
theorem calculate_edges_weight_sound (data : List NodeRow) :
    ∀ e ∈ calculate_edges data 100,
      e.Weight = 1 / (1 + e.Distance) ∧ 0 ≤ e.Distance ∧ 0 < e.Weight
        ∧ e.Weight ≤ 1 := by
  induction data with
  | nil => intro e he; simp [calculate_edges] at he
  | cons r rs ih =>
    intro e he
    rw [calculate_edges] at he
    rcases List.mem_append.mp he with hm | hrec
    · obtain ⟨r2, _, rfl⟩ := List.mem_map.mp hm
      have hd : 0 ≤ calculate_euclidean_distance r r2 * 100 :=
        mul_nonneg (Real.sqrt_nonneg _) (by norm_num)
      refine ⟨rfl, hd, one_div_pos.mpr (by linarith), ?_⟩
      rw [div_le_one (by linarith)]
      linarith
    · exact ih e hrec

/-- With pairwise-distinct `Id`s, every emitted edge row connects two
distinct node ids (rows are paired only with strictly later rows). -/
theorem calculate_edges_no_self (data : List NodeRow)
    (hids : (data.map (fun r => r.Id)).Nodup) :
    ∀ e ∈ calculate_edges data 100, e.Source ≠ e.Target := by
  induction data with
  | nil => intro e he; simp [calculate_edges] at he
  | cons r rs ih =>
    rw [List.map_cons, List.nodup_cons] at hids
    intro e he
    rw [calculate_edges] at he
    rcases List.mem_append.mp he with hm | hrec
    · obtain ⟨r2, hr2, rfl⟩ := List.mem_map.mp hm
      intro hst
      have hst2 : r.Id = r2.Id := hst
      exact hids.1 (by rw [hst2]; exact List.mem_map.mpr ⟨r2, hr2, rfl⟩)
    · exact ih hids.2 e hrec

/-- `calculate_edges` emits exactly one row per unordered pair of distinct
input rows. -/
theorem calculate_edges_length (data : List NodeRow) :
    (calculate_edges data 100).length = data.length.choose 2 := by
  induction data with
  | nil => rfl
  | cons r rs ih =>
    rw [calculate_edges, List.length_append, List.length_map, ih, List.length_cons,
      Nat.choose_succ_succ, Nat.choose_one_right]

/-- Soundness of `build_graph` storage: every stored edge takes its
endpoints from some inserted entry and its weight from some inserted
entry. -/
theorem build_graph_edges_sound {ν α : Type} [DecidableEq ν] (P : ν → ν → Prop)
    (Q : α → Prop) (es : List (ν × ν × α)) (hes : ∀ e ∈ es, P e.1 e.2.1 ∧ Q e.2.2)
    (nds : List ν) :
    ∀ e ∈ (build_graph nds es).edges, P e.1 e.2.1 ∧ Q e.2.2 := by
  rw [build_graph_edges]
  suffices h : ∀ (l : List (ν × ν × α)) (g : NXGraph ν α),
      (∀ e ∈ g.edges, P e.1 e.2.1 ∧ Q e.2.2) → (∀ e ∈ l, P e.1 e.2.1 ∧ Q e.2.2) →
      ∀ e ∈ (l.foldl (fun h e => add_edge h e.1 e.2.1 e.2.2) g).edges,
        P e.1 e.2.1 ∧ Q e.2.2 by
    exact h es { nodes := [], edges := [] } (by intro e he; simp at he) hes
  intro l
  induction l with
  | nil => intro g hg _ e he; exact hg e he
  | cons a t iht =>
    intro g hg hl
    refine iht (add_edge g a.1 a.2.1 a.2.2) ?_ (fun e he => hl e (List.mem_cons_of_mem _ he))
    intro e he
    have ha := hl a (List.mem_cons_self _ _)
    have he2 : e ∈ (if g.edges.any (edgeMatches a.1 a.2.1) then
        g.edges.map (fun e0 =>
          if edgeMatches a.1 a.2.1 e0 then (e0.1, e0.2.1, a.2.2) else e0)
      else g.edges ++ [(a.1, a.2.1, a.2.2)]) := he
    by_cases hb : g.edges.any (edgeMatches a.1 a.2.1) = true
    · rw [if_pos hb] at he2
      obtain ⟨e0, he0, rfl⟩ := List.mem_map.mp he2
      by_cases hm : edgeMatches a.1 a.2.1 e0 = true
      · rw [if_pos hm]
        exact ⟨(hg e0 he0).1, ha.2⟩
      · rw [if_neg hm]
        exact hg e0 he0
    · rw [if_neg hb] at he2
      rcases List.mem_append.mp he2 with hold | hnew
      · exact hg e hold
      · rcases List.mem_singleton.mp hnew with rfl
        exact ⟨ha.1, ha.2⟩

/-- C9: with pairwise-distinct node ids, every edge stored in the graph
built by the pipeline (calculate_edges → filter_edges_by_threshold →
build_graph) has strictly positive weight at most 1 and distinct
endpoints; `calculate_edges` emits one row per unordered pair of distinct
rows, with `Weight = 1/(1 + Distance) ∈ (0, 1]`. -/
theorem pipeline_edge_invariant (data : List NodeRow) (threshold : ℝ)
    (hids : (data.map (fun r => r.Id)).Nodup) :
    ((calculate_edges data 100).length = data.length.choose 2)
    ∧ (∀ e ∈ calculate_edges data 100,
        e.Weight = 1 / (1 + e.Distance) ∧ 0 < e.Weight ∧ e.Weight ≤ 1
          ∧ e.Source ≠ e.Target)
    ∧ (∀ e ∈ (pipeline_graph data threshold).edges,
        0 < e.2.2 ∧ e.2.2 ≤ 1 ∧ e.1 ≠ e.2.1) := by
  refine ⟨calculate_edges_length data, ?_, ?_⟩
  · intro e he
    obtain ⟨hw, _, hpos, hle⟩ := calculate_edges_weight_sound data e he
    exact ⟨hw, hpos, hle, calculate_edges_no_self data hids e he⟩
  · have hsound := build_graph_edges_sound (fun u v => ¬ (u = v))
      (fun w => 0 < w ∧ w ≤ 1)
      ((filter_edges_by_threshold (calculate_edges data 100) threshold).map
        (fun e => (e.Source, e.Target, e.Weight)))
      (by
        intro x hx
        obtain ⟨e, hef, rfl⟩ := List.mem_map.mp hx
        have hee : e ∈ calculate_edges data 100 := List.mem_of_mem_filter hef
        obtain ⟨_, _, hpos, hle⟩ := calculate_edges_weight_sound data e hee
        exact ⟨calculate_edges_no_self data hids e hee, hpos, hle⟩)
      (data.map (fun r => r.Id))
    intro e he
    obtain ⟨h1, h2, h3⟩ := hsound e he
    exact ⟨h2, h3, h1⟩

/-- C9 witness: a two-row table with distinct ids — one emitted edge row,
as one unordered pair of distinct rows. -/
theorem pipeline_edge_invariant_witness :
    (calculate_edges [⟨1, 0, 0⟩, ⟨2, 3, 4⟩] 100).length
      = ([⟨1, 0, 0⟩, ⟨2, 3, 4⟩] : List NodeRow).length.choose 2 :=
  (pipeline_edge_invariant [⟨1, 0, 0⟩, ⟨2, 3, 4⟩] 0 (by decide)).1

end PipelineProofs

section PartitionValidity

/-- The key-presence test used by `dset`, as membership of the key list. -/
theorem dset_any_iff {κ β : Type} [DecidableEq κ] (l : List (κ × β)) (k : κ) :
    l.any (fun p => decide (p.1 = k)) = true ↔ k ∈ l.map Prod.fst := by
  rw [List.any_eq_true]
  constructor
  · rintro ⟨p, hp, hpk⟩
    exact List.mem_map.mpr ⟨p, hp, by simpa using hpk⟩
  · intro h
    obtain ⟨p, hp, hpk⟩ := List.mem_map.mp h
    exact ⟨p, hp, by simpa using hpk⟩

/-- Writing to an existing key keeps the key list unchanged. -/
theorem dset_keys_of_mem {κ β : Type} [DecidableEq κ] (l : List (κ × β)) (k : κ)
    (v : β) (h : k ∈ l.map Prod.fst) :
    (dset l k v).map Prod.fst = l.map Prod.fst := by
  rw [dset, if_pos ((dset_any_iff l k).mpr h)]
  rw [List.map_map]
  refine List.map_congr_left ?_
  intro p _
  by_cases hp : p.1 = k
  · simp [Function.comp, hp]
  · simp [Function.comp, hp]

/-- Writing to a fresh key appends it to the key list. -/
theorem dset_keys_of_not_mem {κ β : Type} [DecidableEq κ] (l : List (κ × β)) (k : κ)
    (v : β) (h : k ∉ l.map Prod.fst) :
    (dset l k v).map Prod.fst = l.map Prod.fst ++ [k] := by
  rw [dset, if_neg (by rw [dset_any_iff l k]; exact h)]
  simp

/-- Entries of a group list whose key differs from `cid` are untouched by
the `setdefault`-append map. -/
theorem groupStep_map_untouched (cid node : ℤ) (t : List (ℤ × List ℤ))
    (h : ∀ c ∈ t, ¬ (c.1 = cid)) :
    t.map (fun c => if c.1 = cid then (c.1, c.2 ++ [node]) else c) = t := by
  induction t with
  | nil => rfl
  | cons c rest ih =>
    rw [List.map_cons, if_neg (h c (List.mem_cons_self _ _)),
      ih (fun x hx => h x (List.mem_cons_of_mem _ hx))]

/-- Appending a node to the unique group with key `cid` appends exactly
that node to the multiset of grouped nodes. -/
theorem group_update_flatten (cid node : ℤ) : ∀ comms : List (ℤ × List ℤ),
    (comms.map Prod.fst).Nodup → comms.any (fun c => decide (c.1 = cid)) = true →
    ((comms.map (fun c => if c.1 = cid then (c.1, c.2 ++ [node]) else c)).map
        Prod.snd).flatten.Perm
      ((comms.map Prod.snd).flatten ++ [node]) := by
  intro comms
  induction comms with
  | nil => intro _ hb; simp at hb
  | cons c rest ih =>
    intro hnd hb
    rw [List.map_cons, List.nodup_cons] at hnd
    by_cases hc : c.1 = cid
    · have hrest : ∀ x ∈ rest, ¬ (x.1 = cid) := by
        intro x hx hxk
        exact hnd.1 (List.mem_map.mpr ⟨x, hx, hxk.trans hc.symm⟩)
      rw [List.map_cons, if_pos hc, groupStep_map_untouched cid node rest hrest,
        List.map_cons, List.flatten_cons, List.map_cons, List.flatten_cons,
        List.append_assoc, List.append_assoc]
      exact List.Perm.append_left c.2 List.perm_append_comm
    · have hb2 : rest.any (fun x => decide (x.1 = cid)) = true := by
        simp only [List.any_cons] at hb
        simpa [hc] using hb
      have hperm := ih hnd.2 hb2
      rw [List.map_cons, if_neg hc, List.map_cons, List.flatten_cons,
        List.map_cons, List.flatten_cons, List.append_assoc]
      exact List.Perm.append_left c.2 hperm

/-- One grouping step appends exactly the new node to the multiset of
grouped nodes, provided the group keys are distinct. -/
theorem groupStep_flatten (comms : List (ℤ × List ℤ)) (kv : ℤ × ℤ)
    (hnd : (comms.map Prod.fst).Nodup) :
    ((groupStep comms kv).map Prod.snd).flatten.Perm
      ((comms.map Prod.snd).flatten ++ [kv.1]) := by
  by_cases hb : comms.any (fun c => decide (c.1 = kv.2)) = true
  · rw [groupStep, if_pos hb]
    exact group_update_flatten kv.2 kv.1 comms hnd hb
  · rw [groupStep, if_neg hb, List.map_append, List.flatten_append]
    exact List.Perm.refl _

/-- Through the grouping fold, group keys stay distinct and the grouped
nodes are a permutation of the processed partition keys. -/
theorem groupFold_spec : ∀ (p : List (ℤ × ℤ)) (acc : List (ℤ × List ℤ)),
    (acc.map Prod.fst).Nodup →
    ((p.foldl groupStep acc).map Prod.fst).Nodup
      ∧ ((p.foldl groupStep acc).map Prod.snd).flatten.Perm
          ((acc.map Prod.snd).flatten ++ p.map Prod.fst) := by
  intro p
  induction p with
  | nil => intro acc h; exact ⟨h, by simp⟩
  | cons kv t ih =>
    intro acc hacc
    have hk : ((groupStep acc kv).map Prod.fst).Nodup := by
      rw [groupStep]
      by_cases hb : acc.any (fun c => decide (c.1 = kv.2)) = true
      · rw [if_pos hb]
        have heq : (acc.map (fun c =>
            if c.1 = kv.2 then (c.1, c.2 ++ [kv.1]) else c)).map Prod.fst
            = acc.map Prod.fst := by
          rw [List.map_map]
          refine List.map_congr_left ?_
          intro c _
          by_cases hc : c.1 = kv.2 <;> simp [Function.comp, hc]
        rw [heq]
        exact hacc
      · rw [if_neg hb, List.map_append]
        have hnm : kv.2 ∉ acc.map Prod.fst := by
          intro hmem
          exact hb ((dset_any_iff acc kv.2).mpr hmem)
        simp [List.nodup_append, hacc, hnm]
    have hstep := groupStep_flatten acc kv hacc
    obtain ⟨ih1, ih2⟩ := ih (groupStep acc kv) hk
    refine ⟨ih1, ?_⟩
    rw [List.foldl_cons]
    refine ih2.trans ?_
    refine (hstep.append_right (t.map Prod.fst)).trans ?_
    rw [List.map_cons, List.append_assoc]
    exact List.Perm.refl _

/-- The grouped community member lists are, together, a permutation of the
partition's keys. -/
theorem groupCommunities_flatten (p : List (ℤ × ℤ)) :
    ((groupCommunities p).map Prod.snd).flatten.Perm (p.map Prod.fst) := by
  have h := (groupFold_spec p [] (by simp)).2
  simpa [groupCommunities] using h

/-- The status produced by one node visit is a remove followed by an
insert on the same node. -/
theorem oneNodeVisit_fst (sh : ShuffleModel) (seed : ℕ) (G : NXGraph ℤ ℚ) (res : ℚ)
    (acc : LStatus × ℕ × Bool) (node : ℤ) :
    ∃ c1 w1 c2 w2, (oneNodeVisit sh seed G res acc node).1
      = statusInsert node c2 w2 (statusRemove node c1 w1 acc.1) :=
  ⟨_, _, _, _, rfl⟩

/-- A node visit keeps the key list of `node2com` when the visited node is
already a key. -/
theorem oneNodeVisit_keys (sh : ShuffleModel) (seed : ℕ) (G : NXGraph ℤ ℚ) (res : ℚ)
    (acc : LStatus × ℕ × Bool) (node : ℤ)
    (h : node ∈ acc.1.node2com.map Prod.fst) :
    (oneNodeVisit sh seed G res acc node).1.node2com.map Prod.fst
      = acc.1.node2com.map Prod.fst := by
  obtain ⟨c1, w1, c2, w2, heq⟩ := oneNodeVisit_fst sh seed G res acc node
  rw [heq]
  show (dset (dset acc.1.node2com node (-1)) node c2).map Prod.fst = _
  have h1 := dset_keys_of_mem acc.1.node2com node (-1) h
  have h2 : node ∈ (dset acc.1.node2com node (-1)).map Prod.fst := by
    rw [h1]; exact h
  rw [dset_keys_of_mem _ _ _ h2, h1]

/-- Folding node visits over a list of existing keys keeps the key list. -/
theorem foldl_visits_keys (sh : ShuffleModel) (seed : ℕ) (G : NXGraph ℤ ℚ) (res : ℚ) :
    ∀ (l : List ℤ) (acc : LStatus × ℕ × Bool),
      (∀ x ∈ l, x ∈ acc.1.node2com.map Prod.fst) →
      ((l.foldl (oneNodeVisit sh seed G res) acc).1.node2com.map Prod.fst)
        = acc.1.node2com.map Prod.fst := by
  intro l
  induction l with
  | nil => intro acc _; rfl
  | cons x t ih =>
    intro acc hl
    rw [List.foldl_cons]
    have hx := oneNodeVisit_keys sh seed G res acc x (hl x (List.mem_cons_self _ _))
    rw [ih (oneNodeVisit sh seed G res acc x) (fun y hy => by
      rw [hx]; exact hl y (List.mem_cons_of_mem _ hy)), hx]

/-- One pass of the local-moving phase keeps the key list when the shuffle
returns a sublist of the graph's nodes and those are exactly the keys. -/
theorem onePass_keys (sh : ShuffleModel) (seed : ℕ) (G : NXGraph ℤ ℚ) (res : ℚ)
    (st : LStatus) (c : ℕ)
    (hsh : ∀ k, sh.nodesShuffle seed k G.nodes ⊆ G.nodes)
    (hst : st.node2com.map Prod.fst = G.nodes) :
    (onePass sh seed G res st c).1.node2com.map Prod.fst = G.nodes := by
  rw [onePass, foldl_visits_keys sh seed G res _ _ (fun x hx => by
    show x ∈ st.node2com.map Prod.fst
    rw [hst]
    exact hsh c hx)]
  exact hst

/-- The `while modified` loop keeps the key list. -/
theorem oneLevelGo_keys (sh : ShuffleModel) (seed : ℕ) (G : NXGraph ℤ ℚ) (res : ℚ)
    (hsh : ∀ k, sh.nodesShuffle seed k G.nodes ⊆ G.nodes) :
    ∀ (fuel : ℕ) (st : LStatus) (c : ℕ) (pm : ℚ) (r : LStatus × ℕ),
      st.node2com.map Prod.fst = G.nodes →
      oneLevelGo sh seed G res fuel st c pm = .ok r →
      r.1.node2com.map Prod.fst = G.nodes := by
  intro fuel
  induction fuel with
  | zero => intro st c pm r _ h; exact absurd h (by simp [oneLevelGo])
  | succ n ih =>
    intro st c pm r hst h
    simp only [oneLevelGo] at h
    have hp := onePass_keys sh seed G res st c hsh hst
    by_cases h1 : statusModularity (onePass sh seed G res st c).1 res - pm < qMIN
    · rw [if_pos h1] at h
      injection h with h2
      rw [← h2]
      exact hp
    · rw [if_neg h1] at h
      by_cases h2 : (onePass sh seed G res st c).2.2 = true
      · rw [if_pos h2] at h
        exact ih (onePass sh seed G res st c).1 (onePass sh seed G res st c).2.1
          (statusModularity (onePass sh seed G res st c).1 res) r hp h
      · rw [if_neg h2] at h
        injection h with h3
        rw [← h3]
        exact hp

/-- Keys of `node2com` after `Status.init` over a fresh node list. -/
theorem statusInitGo_keys (G : NXGraph ℤ ℚ) :
    ∀ (ns : List ℤ) (count : ℤ) (st st2 : LStatus),
      (∀ n ∈ ns, n ∉ st.node2com.map Prod.fst) → ns.Nodup →
      statusInitGo G ns count st = .ok st2 →
      st2.node2com.map Prod.fst = st.node2com.map Prod.fst ++ ns := by
  intro ns
  induction ns with
  | nil =>
    intro count st st2 _ _ h
    injection h with h2
    rw [← h2]
    simp
  | cons n rest ih =>
    intro count st st2 hfresh hnd h
    rw [List.nodup_cons] at hnd
    simp only [statusInitGo] at h
    by_cases hdeg : degree G n < 0
    · rw [if_pos hdeg] at h
      exact absurd h (by simp)
    · rw [if_neg hdeg] at h
      have hn : n ∉ st.node2com.map Prod.fst := hfresh n (List.mem_cons_self _ _)
      have hkeys1 : (dset st.node2com n count).map Prod.fst
          = st.node2com.map Prod.fst ++ [n] := dset_keys_of_not_mem _ _ _ hn
      have hfresh2 : ∀ m ∈ rest, m ∉ (dset st.node2com n count).map Prod.fst := by
        intro m hm
        rw [hkeys1, List.mem_append]
        rintro (hmem | hmem)
        · exact hfresh m (List.mem_cons_of_mem _ hm) hmem
        · rw [List.mem_singleton] at hmem
          exact hnd.1 (hmem ▸ hm)
      have hrec := ih (count + 1) _ st2 hfresh2 hnd.2 h
      rw [hrec]
      show (dset st.node2com n count).map Prod.fst ++ rest = _
      rw [hkeys1, List.append_assoc]
      rfl

/-- `Status.init` makes the graph's nodes the keys of `node2com`. -/
theorem statusInit_keys (G : NXGraph ℤ ℚ) (st : LStatus) (hG : G.nodes.Nodup)
    (h : statusInit G = .ok st) : st.node2com.map Prod.fst = G.nodes := by
  have h2 := statusInitGo_keys G G.nodes 0 _ st
    (by intro n _ hmem; simp at hmem) hG h
  simpa using h2

/-- Renumbering communities keeps the node keys. -/
theorem renumber_keys (d : List (ℤ × ℤ)) :
    (renumber d).map Prod.fst = d.map Prod.fst := by
  simp only [renumber]
  by_cases hv : zsort (d.map Prod.snd).dedup
      = (List.range (zsort (d.map Prod.snd).dedup).length).map (fun i => (i : ℤ))
  · rw [if_pos hv]
  · rw [if_neg hv, List.map_map]
    refine List.map_congr_left ?_
    intro p _
    rfl

/-- Composing per-level assignments keeps the node keys of level 0. -/
theorem partition_at_level_keys (dendo : List (List (ℤ × ℤ))) (level : ℕ) :
    (partition_at_level dendo level).map Prod.fst
      = (dendo.headD []).map Prod.fst := by
  rw [partition_at_level]
  suffices h : ∀ (idxs : List ℕ) (p : List (ℤ × ℤ)),
      ((idxs.foldl (fun p idx =>
        p.map (fun kv => (kv.1, dget (dendo.getD idx []) kv.2 0))) p).map Prod.fst)
        = p.map Prod.fst by
    exact h _ _
  intro idxs
  induction idxs with
  | nil => intro p; rfl
  | cons i t ih =>
    intro p
    rw [List.foldl_cons, ih, List.map_map]
    refine List.map_congr_left ?_
    intro kv _
    rfl

/-- Appending at the back does not change a non-empty list's head. -/
theorem headD_append_singleton {γ : Type} (l : List γ) (x : γ) (d : γ)
    (h : l ≠ []) : (l ++ [x]).headD d = l.headD d := by
  cases l with
  | nil => exact absurd rfl h
  | cons a t => rfl

/-- The level loop only ever appends to the dendrogram, so a successful
run returns a non-empty dendrogram with the same first level. -/
theorem dendrogramLoop_head (sh : ShuffleModel) (seed : ℕ) (res : ℚ) (pf : ℕ) :
    ∀ (fuel : ℕ) (cg : NXGraph ℤ ℚ) (st : LStatus) (c : ℕ)
      (acc : List (List (ℤ × ℤ))) (m : ℚ) (dendo : List (List (ℤ × ℤ))),
      acc ≠ [] →
      dendrogramLoop sh seed res pf fuel cg st c acc m = .ok dendo →
      dendo ≠ [] ∧ dendo.headD [] = acc.headD [] := by
  intro fuel
  induction fuel with
  | zero =>
    intro cg st c acc m dendo _ h
    exact absurd h (by simp [dendrogramLoop])
  | succ n ih =>
    intro cg st c acc m dendo hacc h
    rw [dendrogramLoop] at h
    cases hol : one_level sh seed cg res pf st c with
    | err e =>
      rw [hol] at h
      exact absurd h (by simp [LRes.bind])
    | ok r =>
      rw [hol] at h
      simp only [LRes.bind] at h
      by_cases hlt : statusModularity r.1 res - m < qMIN
      · rw [if_pos hlt] at h
        injection h with h2
        exact ⟨h2 ▸ hacc, by rw [← h2]⟩
      · rw [if_neg hlt] at h
        cases hsi : statusInit (induced_graph (renumber r.1.node2com) cg) with
        | err e =>
          rw [hsi] at h
          exact absurd h (by simp [LRes.bind])
        | ok st2 =>
          rw [hsi] at h
          simp only [LRes.bind] at h
          have hres := ih _ _ _ (acc ++ [renumber r.1.node2com]) _ dendo (by simp) h
          exact ⟨hres.1, hres.2.trans (headD_append_singleton acc _ [] hacc)⟩

/-- The edgeless-graph partition enumerates exactly the nodes. -/
theorem enumeratePart_keys (ns : List ℤ) : (enumeratePart ns).map Prod.fst = ns := by
  rw [enumeratePart, List.map_map]
  have h : (Prod.fst ∘ fun p : ℕ × ℤ => (p.2, (p.1 : ℤ))) = Prod.snd := rfl
  rw [h, List.enum_map_snd]

/-- The partition returned by `best_partition(randomize=False)` has
exactly the graph's nodes as keys, whenever it returns at all. -/
theorem best_partition_keys (sh : ShuffleModel) (pf lf : ℕ) (G : NXGraph ℤ ℚ)
    (res : ℚ) (amb : ℕ) (p : List (ℤ × ℤ))
    (hsh : ∀ s k l, sh.nodesShuffle s k l ⊆ l)
    (hG : G.nodes.Nodup)
    (h : best_partition sh pf lf G res (some false) none amb = .ok p) :
    p.map Prod.fst = G.nodes := by
  rw [best_partition, generate_dendrogram] at h
  have hseed : resolveSeed (some false) none amb = .ok 0 := rfl
  rw [hseed] at h
  simp only [LRes.bind] at h
  by_cases hE : G.edges.length = 0
  · rw [if_pos hE] at h
    injection h with h2
    rw [← h2, partition_at_level_keys]
    show (enumeratePart G.nodes).map Prod.fst = G.nodes
    exact enumeratePart_keys G.nodes
  · rw [if_neg hE] at h
    cases hsi : statusInit G with
    | err e =>
      rw [hsi] at h
      exact absurd h (by simp [LRes.bind])
    | ok st =>
      rw [hsi] at h
      simp only [LRes.bind] at h
      cases hol : one_level sh 0 G res pf st 0 with
      | err e =>
        rw [hol] at h
        exact absurd h (by simp [LRes.bind])
      | ok r =>
        rw [hol] at h
        simp only [LRes.bind] at h
        cases hsi2 : statusInit (induced_graph (renumber r.1.node2com) G) with
        | err e =>
          rw [hsi2] at h
          exact absurd h (by simp [LRes.bind])
        | ok st2 =>
          rw [hsi2] at h
          simp only [LRes.bind] at h
          cases hdl : dendrogramLoop sh 0 res pf lf
              (induced_graph (renumber r.1.node2com) G) st2 r.2
              [renumber r.1.node2com] (statusModularity r.1 res) with
          | err e =>
            rw [hdl] at h
            exact absurd h (by simp [LRes.bind])
          | ok dendo =>
            rw [hdl] at h
            simp only [LRes.bind] at h
            injection h with h2
            have hhead := dendrogramLoop_head sh 0 res pf lf _ _ _ _ _ dendo
              (by simp) hdl
            have hkeys1 : st.node2com.map Prod.fst = G.nodes :=
              statusInit_keys G st hG hsi
            have hkeys2 : r.1.node2com.map Prod.fst = G.nodes :=
              oneLevelGo_keys sh 0 G res (fun k => hsh 0 k G.nodes) pf st 0 _ r
                hkeys1 hol
            rw [← h2, partition_at_level_keys, hhead.2]
            show (renumber r.1.node2com).map Prod.fst = G.nodes
            rw [renumber_keys]
            exact hkeys2

/-- C8: whenever `compute_communities` succeeds, the communities grouping
is a valid partition of the graph's node set: the concatenation of all
member lists is a permutation of the node list, every graph node appears
in exactly one member list (count 1 across the whole grouping), and no
other node appears. -/
theorem communities_partition_nodes (sh : ShuffleModel) (pf lf amb : ℕ)
    (G : NXGraph ℤ ℚ) (p : List (ℤ × ℤ)) (comms : List (ℤ × List ℤ)) (q : ℚ)
    (hsh : ∀ s k l, sh.nodesShuffle s k l ⊆ l)
    (hG : G.nodes.Nodup)
    (h : compute_communities sh pf lf amb G = .ok (p, comms, q)) :
    ((comms.map Prod.snd).flatten).Perm G.nodes
    ∧ (∀ v ∈ G.nodes, ((comms.map Prod.snd).flatten).count v = 1)
    ∧ (∀ v, v ∉ G.nodes → ((comms.map Prod.snd).flatten).count v = 0) := by
  rw [compute_communities] at h
  cases hbp : best_partition sh pf lf G 1 (some false) none amb with
  | err e =>
    rw [hbp] at h
    exact absurd h (by simp [LRes.bind])
  | ok p0 =>
    rw [hbp] at h
    simp only [LRes.bind] at h
    cases hm : modularity p0 G with
    | err e =>
      rw [hm] at h
      exact absurd h (by simp [LRes.bind])
    | ok m =>
      rw [hm] at h
      simp only [LRes.bind] at h
      injection h with h2
      rw [Prod.mk.injEq, Prod.mk.injEq] at h2
      obtain ⟨hp, hc, hq⟩ := h2
      subst hp
      subst hc
      subst hq
      have hflat := groupCommunities_flatten p0
      have hkeys := best_partition_keys sh pf lf G 1 amb p0 hsh hG hbp
      rw [hkeys] at hflat
      refine ⟨hflat, ?_, ?_⟩
      · intro v hv
        rw [hflat.count_eq v]
        exact List.count_eq_one_of_mem hG hv
      · intro v hv
        rw [hflat.count_eq v]
        exact List.count_eq_zero.mpr hv

/-- C8 witness: the two-node single-edge graph, identity shuffles, fuel 10;
node counts instantiated at 1 (member), 2 (member) and 3 (non-node). -/
theorem communities_partition_nodes_witness :
    (([((0 : ℤ), [(1 : ℤ), 2])].map Prod.snd).flatten).Perm ([1, 2] : List ℤ)
    ∧ (([((0 : ℤ), [(1 : ℤ), 2])].map Prod.snd).flatten).count (1 : ℤ) = 1
    ∧ (([((0 : ℤ), [(1 : ℤ), 2])].map Prod.snd).flatten).count (2 : ℤ) = 1
    ∧ (([((0 : ℤ), [(1 : ℤ), 2])].map Prod.snd).flatten).count (3 : ℤ) = 0 :=
  ⟨(communities_partition_nodes ⟨fun _ _ l => l, fun _ _ l => l⟩ 10 10 0
      ⟨[1, 2], [(1, 2, 1)]⟩ [(1, 0), (2, 0)] [(0, [1, 2])] 0
      (fun _ _ l => List.Subset.refl l) (by decide)
      (by with_unfolding_all decide)).1,
   (communities_partition_nodes ⟨fun _ _ l => l, fun _ _ l => l⟩ 10 10 0
      ⟨[1, 2], [(1, 2, 1)]⟩ [(1, 0), (2, 0)] [(0, [1, 2])] 0
      (fun _ _ l => List.Subset.refl l) (by decide)
      (by with_unfolding_all decide)).2.1 1 (by decide),
   (communities_partition_nodes ⟨fun _ _ l => l, fun _ _ l => l⟩ 10 10 0
      ⟨[1, 2], [(1, 2, 1)]⟩ [(1, 0), (2, 0)] [(0, [1, 2])] 0
      (fun _ _ l => List.Subset.refl l) (by decide)
      (by with_unfolding_all decide)).2.1 2 (by decide),
   (communities_partition_nodes ⟨fun _ _ l => l, fun _ _ l => l⟩ 10 10 0
      ⟨[1, 2], [(1, 2, 1)]⟩ [(1, 0), (2, 0)] [(0, [1, 2])] 0
      (fun _ _ l => List.Subset.refl l) (by decide)
      (by with_unfolding_all decide)).2.2 3 (by decide)⟩

end PartitionValidity

end EEG
